import Mathlib

/-!
# Verification of the Brasília road-network analysis

Shallow embedding of the graph-analysis core of the repository
(`src/analise_centralidades.py`, `src/analise_estrutural.py`,
`src/analise_impacto.py`, `src/analise_exploratoria.py`).

The repository builds a weighted undirected `networkx` graph from an edge
list plus a distance table, and computes degree / closeness / betweenness /
edge-betweenness centralities, bridges, and an edge-removal impact
simulation.  Machine floats are modelled by `ℚ`; the `networkx` calls are
modelled by their documented mathematical semantics (shortest paths as
minimum-weight simple paths, which matches weighted Dijkstra on the
non-negative weights of the data model).
-/

namespace BsbRede

/-- A weighted undirected graph, the embedding of the `nx.Graph()` objects
built by `carregar_dados`: a node set, a set of undirected edges (`Sym2`),
and a weight attribute per edge (keyed the way the code keys `distancias`,
by unordered pair). -/
structure WGraph where
  nodes : Finset ℕ
  edges : Finset (Sym2 ℕ)
  weight : Sym2 ℕ → ℚ

/-- Data-model invariant (spec §3): every edge joins two distinct nodes of
the graph. -/
def WellFormed (g : WGraph) : Prop :=
  (∀ e ∈ g.edges, ¬ e.IsDiag) ∧ (∀ e ∈ g.edges, ∀ v ∈ e, v ∈ g.nodes)

instance decidableBallSym2 {p : ℕ → Prop} [DecidablePred p] (e : Sym2 ℕ) :
    Decidable (∀ v ∈ e, p v) :=
  e.recOnSubsingleton fun ab =>
    decidable_of_iff (p ab.1 ∧ p ab.2) (by
      constructor
      · rintro ⟨h1, h2⟩ v hv
        rcases Sym2.mem_iff.mp hv with rfl | rfl
        · exact h1
        · exact h2
      · intro h
        exact ⟨h _ (Sym2.mem_mk_left _ _), h _ (Sym2.mem_mk_right _ _)⟩)

instance (g : WGraph) : Decidable (WellFormed g) := by
  unfold WellFormed; infer_instance

/-- `G.add_edge(u, v, weight=w)`: inserts both endpoints and the edge, and
(re)sets the weight attribute of the unordered pair to `w`. -/
def addEdge (g : WGraph) (u v : ℕ) (w : ℚ) : WGraph :=
  ⟨insert u (insert v g.nodes),
   insert s(u, v) g.edges,
   fun k => if k = s(u, v) then w else g.weight k⟩

/-- `G.remove_edge(u, v)`: removes the edge, keeping the node set. -/
def removeEdge (g : WGraph) (e : Sym2 ℕ) : WGraph :=
  ⟨g.nodes, g.edges.erase e, g.weight⟩

/-- `G.degree(v)`: number of edges incident to `v`. -/
def degree (g : WGraph) (v : ℕ) : ℕ :=
  (g.edges.filter (fun e => v ∈ e)).card

/-- The empty `nx.Graph()`. -/
def emptyGraph : WGraph := ⟨∅, ∅, fun _ => 0⟩

/-- The edge-building loop of `carregar_dados`: for each record `(no1, no2)`
of `brasilia.net` it looks the unordered pair up in the `distancias` table,
defaulting to `0` when absent, and calls `add_edge`. -/
def carregarFrom (dist : Sym2 ℕ → Option ℚ) (g : WGraph) :
    List (ℕ × ℕ) → WGraph
  | [] => g
  | r :: rs => carregarFrom dist (addEdge g r.1 r.2 ((dist s(r.1, r.2)).getD 0)) rs

/-- `carregar_dados`, second phase: build the graph from the edge records. -/
def carregarArestas (dist : Sym2 ℕ → Option ℚ) (records : List (ℕ × ℕ)) : WGraph :=
  carregarFrom dist emptyGraph records

/-- Degree-centrality computation of `calcular_centralidades` (lines
124–130): `max_grau = number_of_nodes() - 1` and then a dict comprehension
`{no: grau / max_grau}`.  When the graph has exactly one node the Python
division `0 / 0` raises `ZeroDivisionError`, which is modelled by `none`;
otherwise the per-node map is returned. -/
def degreeCentrality (g : WGraph) : Option (ℕ → ℚ) :=
  if g.nodes.card = 1 then none
  else some (fun v => (degree g v : ℚ) / ((g.nodes.card : ℚ) - 1))

/-! ## Connectivity

`nx.number_connected_components` / `nx.connected_components` view the graph
as an unweighted undirected graph on its node set.  We realize that view as
a Mathlib `SimpleGraph` on the subtype of nodes; self-loops (excluded by
the data model) are irrelevant for connectivity, so adjacency requires
distinct endpoints. -/

/-- The unweighted view of the graph used by all connectivity queries. -/
def toSG (g : WGraph) : SimpleGraph {x // x ∈ g.nodes} where
  Adj a b := a ≠ b ∧ s(a.val, b.val) ∈ g.edges
  symm := by
    rintro a b ⟨hab, he⟩
    exact ⟨hab.symm, by rwa [Sym2.eq_swap]⟩
  loopless := by rintro a ⟨h, _⟩; exact h rfl

instance (g : WGraph) : DecidableRel (toSG g).Adj :=
  fun a b => inferInstanceAs (Decidable (a ≠ b ∧ s(a.val, b.val) ∈ g.edges))

/-- `nx.number_connected_components(G)`. -/
def numComponents (g : WGraph) : ℕ :=
  Fintype.card (toSG g).ConnectedComponent

/-- Reachability between two node identifiers (`nx.has_path`): both must be
nodes of the graph and be joined by a walk. -/
def nreachable (g : WGraph) (a b : ℕ) : Prop :=
  ∃ ha : a ∈ g.nodes, ∃ hb : b ∈ g.nodes, (toSG g).Reachable ⟨a, ha⟩ ⟨b, hb⟩

theorem nreachable_comm (g : WGraph) (a b : ℕ) :
    nreachable g a b ↔ nreachable g b a := by
  constructor <;> rintro ⟨h1, h2, h⟩ <;> exact ⟨h2, h1, h.symm⟩

/-- `nx.bridges(G)` reports an edge exactly when its removal disconnects
its two endpoints (the docstring of `identificar_pontes`: an edge whose
removal disconnects the graph; computed by Tarjan / chain decomposition). -/
def isBridge (g : WGraph) (e : Sym2 ℕ) : Prop :=
  e ∈ g.edges ∧
    Sym2.lift
      ⟨fun a b => ¬ nreachable (removeEdge g e) a b,
       fun a b => by
         simp only [eq_iff_iff]
         exact not_congr (nreachable_comm _ a b)⟩ e

/-! ## Weighted shortest paths

`nx.shortest_path_length(G, u, v, weight='weight')` and the path counting
inside `nx.betweenness_centrality` / `nx.edge_betweenness_centrality` run
weighted Dijkstra.  On the non-negative weights of the data model Dijkstra
computes exactly the minimum total weight over duplicate-free vertex
sequences, and counts the minimum-weight ones, which is how it is
modelled here. -/

/-- Insert a value into a weakly increasing list, keeping it increasing. -/
def insertNode (x : ℕ) : List ℕ → List ℕ
  | [] => [x]
  | y :: t => if x ≤ y then x :: y :: t else y :: insertNode x t

theorem insertNode_comm (a b : ℕ) (l : List ℕ) :
    insertNode a (insertNode b l) = insertNode b (insertNode a l) := by
  induction l with
  | nil =>
    by_cases h1 : a ≤ b
    · by_cases h2 : b ≤ a
      · have : a = b := le_antisymm h1 h2
        subst this; rfl
      · simp [insertNode, h1, h2]
    · have h2 : b ≤ a := by omega
      simp [insertNode, h1, h2]
  | cons y t ih =>
    by_cases hby : b ≤ y <;> by_cases hay : a ≤ y
    · by_cases h1 : a ≤ b
      · by_cases h2 : b ≤ a
        · have : a = b := le_antisymm h1 h2
          subst this; rfl
        · simp [insertNode, hby, hay, h1, h2]
      · have h2 : b ≤ a := by omega
        simp [insertNode, hby, hay, h1, h2]
    · have h1 : ¬ a ≤ b := by omega
      simp [insertNode, hby, hay, h1]
    · have h1 : ¬ b ≤ a := by omega
      simp [insertNode, hby, hay, h1]
    · simp [insertNode, hby, hay, ih]

instance : LeftCommutative insertNode := ⟨insertNode_comm⟩

/-- A concrete enumeration of a finite node set (insertion sort over the
underlying multiset). -/
def listNodes (s : Finset ℕ) : List ℕ :=
  Multiset.foldr insertNode [] s.val

theorem mem_insertNode {x a : ℕ} {l : List ℕ} :
    x ∈ insertNode a l ↔ x = a ∨ x ∈ l := by
  induction l with
  | nil => simp [insertNode]
  | cons y t ih =>
    by_cases h : a ≤ y
    · simp [insertNode, h]
    · simp [insertNode, h, ih]
      tauto

theorem mem_listNodes {s : Finset ℕ} {x : ℕ} : x ∈ listNodes s ↔ x ∈ s := by
  unfold listNodes
  induction s using Finset.induction_on with
  | empty => simp
  | insert ha ih =>
    rename_i a t
    rw [Finset.insert_val, Multiset.ndinsert_of_not_mem ha, Multiset.foldr_cons,
      mem_insertNode, Finset.mem_insert, ih]

theorem nodup_insertNode {a : ℕ} {l : List ℕ} (hnd : l.Nodup) (ha : a ∉ l) :
    (insertNode a l).Nodup := by
  induction l with
  | nil => simp [insertNode]
  | cons y t ih =>
    rw [List.mem_cons, not_or] at ha
    rw [List.nodup_cons] at hnd
    by_cases h : a ≤ y
    · rw [insertNode, if_pos h, List.nodup_cons, List.nodup_cons]
      exact ⟨by simp [ha.1, ha.2], hnd⟩
    · rw [insertNode, if_neg h, List.nodup_cons]
      refine ⟨fun hy => ?_, ih hnd.2 ha.2⟩
      rcases mem_insertNode.mp hy with h2 | h2
      · exact ha.1 h2.symm
      · exact hnd.1 h2

theorem nodup_listNodes (s : Finset ℕ) : (listNodes s).Nodup := by
  unfold listNodes
  induction s using Finset.induction_on with
  | empty => simp
  | insert ha ih =>
    rename_i a t
    rw [Finset.insert_val, Multiset.ndinsert_of_not_mem ha, Multiset.foldr_cons]
    exact nodup_insertNode ih (fun h => ha (mem_listNodes.mp h))

/-- Every duplicate-free vertex sequence over the node set. -/
def candidates (g : WGraph) : Finset (List ℕ) :=
  ((listNodes g.nodes).sublists.flatMap List.permutations').toFinset

/-- Consecutive pairs of a vertex sequence, as undirected edges. -/
def edgesOf : List ℕ → List (Sym2 ℕ)
  | x :: y :: rest => s(x, y) :: edgesOf (y :: rest)
  | _ => []

/-- `p` is a simple path of `g` from `a` to `b`. -/
def isPathList (g : WGraph) (a b : ℕ) (p : List ℕ) : Prop :=
  p.Nodup ∧ (∀ x ∈ p, x ∈ g.nodes) ∧ p.head? = some a ∧ p.getLast? = some b ∧
    ∀ e ∈ edgesOf p, e ∈ g.edges

instance (g : WGraph) (a b : ℕ) (p : List ℕ) : Decidable (isPathList g a b p) := by
  unfold isPathList; infer_instance

/-- The finite set of simple paths of `g` from `a` to `b`. -/
def pathFinset (g : WGraph) (a b : ℕ) : Finset (List ℕ) :=
  (candidates g).filter (isPathList g a b)

/-- Total weight of a vertex sequence. -/
def wlen (g : WGraph) (p : List ℕ) : ℚ :=
  ((edgesOf p).map g.weight).sum

/-- Shortest-path distance (`nx.shortest_path_length` with Dijkstra):
minimum weight over the simple paths from `a` to `b`, `none` when there is
no path (`nx.NetworkXNoPath`). -/
def spOpt (g : WGraph) (a b : ℕ) : Option ℚ :=
  ((pathFinset g a b).image (wlen g)).min

/-- Number of minimum-weight paths from `a` to `b` (Brandes' σ). -/
def numSP (g : WGraph) (a b : ℕ) : ℕ :=
  match spOpt g a b with
  | none => 0
  | some d => ((pathFinset g a b).filter (fun p => wlen g p = d)).card

/-- Number of minimum-weight paths from `a` to `b` that use edge `e`. -/
def numSPedge (g : WGraph) (a b : ℕ) (e : Sym2 ℕ) : ℕ :=
  match spOpt g a b with
  | none => 0
  | some d => ((pathFinset g a b).filter (fun p => wlen g p = d ∧ e ∈ edgesOf p)).card

/-- Number of minimum-weight paths from `a` to `b` passing through `v` as
an interior vertex. -/
def numSPnode (g : WGraph) (a b : ℕ) (v : ℕ) : ℕ :=
  match spOpt g a b with
  | none => 0
  | some d =>
    ((pathFinset g a b).filter (fun p => wlen g p = d ∧ v ∈ p ∧ v ≠ a ∧ v ≠ b)).card

/-! ## Centralities (`calcular_centralidades`) -/

/-- The nodes `nx.single_source_dijkstra_path_length(G, u)` returns a
distance for: the nodes reachable from `u` (including `u` itself). -/
def reachSet (g : WGraph) (u : ℕ) : Finset ℕ :=
  g.nodes.filter (fun v => (spOpt g u v).isSome)

/-- `totsp`: sum of the shortest-path distances from `u`. -/
def totsp (g : WGraph) (u : ℕ) : ℚ :=
  ∑ v ∈ reachSet g u, (spOpt g u v).getD 0

/-- `nx.closeness_centrality(G, distance='weight')` (default
`wf_improved=True`): `(r - 1) / totsp` scaled by the Wasserman–Faust
factor `(r - 1) / (n - 1)`, where `r` counts the nodes reachable from `u`;
`0` when `totsp = 0` or the graph has fewer than two nodes. -/
def closeness (g : WGraph) (u : ℕ) : ℚ :=
  if 0 < totsp g u ∧ 1 < g.nodes.card then
    (((reachSet g u).card : ℚ) - 1) / totsp g u *
      ((((reachSet g u).card : ℚ) - 1) / ((g.nodes.card : ℚ) - 1))
  else 0

/-- Brandes accumulation of `nx.edge_betweenness_centrality`: summed over
all ordered pairs of distinct nodes (each source contributes its
dependency), the fraction of shortest paths through `e`. -/
def rawEdgeBetweenness (g : WGraph) (e : Sym2 ℕ) : ℚ :=
  ∑ p ∈ g.nodes.offDiag, (numSPedge g p.1 p.2 e : ℚ) / (numSP g p.1 p.2 : ℚ)

/-- `nx.edge_betweenness_centrality(G, weight='weight', normalized=True)`:
the accumulation rescaled by `1 / (n (n - 1))` when the graph has at least
two nodes. -/
def edgeBetweenness (g : WGraph) (e : Sym2 ℕ) : ℚ :=
  if 1 < g.nodes.card then
    rawEdgeBetweenness g e / ((g.nodes.card : ℚ) * ((g.nodes.card : ℚ) - 1))
  else rawEdgeBetweenness g e

/-- The same accumulation restricted to unordered pairs (each pair of
distinct nodes counted once). -/
def rawEdgeBetweennessUnordered (g : WGraph) (e : Sym2 ℕ) : ℚ :=
  ∑ p ∈ g.nodes.offDiag.filter (fun p => p.1 < p.2),
    (numSPedge g p.1 p.2 e : ℚ) / (numSP g p.1 p.2 : ℚ)

/-- Brandes accumulation of `nx.betweenness_centrality` over ordered pairs
of distinct nodes (endpoints excluded). -/
def rawBetweenness (g : WGraph) (v : ℕ) : ℚ :=
  ∑ p ∈ g.nodes.offDiag, (numSPnode g p.1 p.2 v : ℚ) / (numSP g p.1 p.2 : ℚ)

/-- `nx.betweenness_centrality(G, weight='weight', normalized=True)`:
rescaled by `1 / ((n - 1) (n - 2))` when the graph has more than two
nodes. -/
def betweenness (g : WGraph) (v : ℕ) : ℚ :=
  if 2 < g.nodes.card then
    rawBetweenness g v / (((g.nodes.card : ℚ) - 1) * ((g.nodes.card : ℚ) - 2))
  else rawBetweenness g v

/-- The four centrality computations of `calcular_centralidades`, bundled
in execution order. -/
structure Centralidades where
  degreeC : Option (ℕ → ℚ)
  betweennessC : ℕ → ℚ
  closenessC : ℕ → ℚ
  edgeBetweennessC : Sym2 ℕ → ℚ

/-- `calcular_centralidades`: computes the four centrality maps of the
(unchanged) graph. -/
def calcularCentralidades (g : WGraph) : Centralidades :=
  ⟨degreeCentrality g, betweenness g, closeness g, edgeBetweenness g⟩

/-- Two successive invocations of `calcular_centralidades` on the same
graph. -/
def calcularDuasVezes (g : WGraph) : Centralidades × Centralidades :=
  (calcularCentralidades g, calcularCentralidades g)

/-! ## Impact simulation (`simular_remocao_ponte`) -/

/-- Body of the nested sampling loops (lines 304–327 of
`analise_impacto.py`): skip pairs with `origem >= destino`; skip pairs
with no original path; count pairs that lost their path; when the new
distance is strictly larger, evaluate
`((dist_nova - dist_original) / dist_original) * 100`, which raises an
unhandled `ZeroDivisionError` when `dist_original` is zero (possible for
zero-weight paths, since the loader creates weight-0 edges) — modelled by
the absorbing `none` state — and otherwise appends the percentage. -/
def impactStep (g gmod : WGraph) (o : ℕ) (acc : Option (List ℚ × ℕ)) (d : ℕ) :
    Option (List ℚ × ℕ) :=
  match acc with
  | none => none
  | some acc =>
    if d ≤ o then some acc
    else
      match spOpt g o d with
      | none => some acc
      | some d0 =>
        match spOpt gmod o d with
        | none => some (acc.1, acc.2 + 1)
        | some d1 =>
          if d0 < d1 then
            if d0 = 0 then none
            else some (acc.1 ++ [(d1 - d0) / d0 * 100], acc.2)
          else some acc

/-- The double loop `for origem in nos_amostra: for destino in
nos_amostra: ...` accumulating `aumentos` and `sem_caminho`; `none` when
some iteration raised `ZeroDivisionError` (the exception propagates, so
nothing after it runs). -/
def impactLoop (g gmod : WGraph) (ns : List ℕ) : Option (List ℚ × ℕ) :=
  ns.foldl (fun acc o => ns.foldl (impactStep g gmod o) acc) (some ([], 0))

/-- Fields of the per-edge `resultado` dict relevant to connectivity and
distance impact. -/
structure SimResult where
  componentesAntes : ℕ
  componentesDepois : ℕ
  aumentosDistancia : List ℚ
  paresDesconectados : ℕ

/-- One simulation of `simular_remocao_ponte` for edge `e`: the graph is
copied, the edge removed from the copy, components counted before (on the
original) and after (on the copy), and distances compared over the sample
`list(G.nodes())[:20]` (`nodeList` is the iteration order of the node
set).  The result is `none` when the loop raised `ZeroDivisionError`.
The pair also returns the analyzer's graph after the call: the original
object, untouched even when the exception propagates, since only the copy
is ever mutated. -/
def simularRemocaoPonte (g : WGraph) (e : Sym2 ℕ) (nodeList : List ℕ) :
    Option SimResult × WGraph :=
  let gmod := removeEdge g e
  let nosAmostra := nodeList.take 20
  ((impactLoop g gmod nosAmostra).map fun r =>
    ⟨numComponents g, numComponents gmod, r.1, r.2⟩, g)

/-- The value recorded for a sampled pair: `some` percentage increase when
both distances exist, the distance strictly grew, and the division does
not fail (original distance nonzero). -/
def pairVal (g gmod : WGraph) (o d : ℕ) : Option ℚ :=
  match spOpt g o d, spOpt gmod o d with
  | some d0, some d1 =>
    if d0 < d1 ∧ d0 ≠ 0 then some ((d1 - d0) / d0 * 100) else none
  | _, _ => none

/-- A sampled pair on which line 320 raises `ZeroDivisionError`: the
distance strictly grew but the original distance is zero. -/
def pairCrash (g gmod : WGraph) (o d : ℕ) : Bool :=
  match spOpt g o d, spOpt gmod o d with
  | some d0, some d1 => decide (d0 < d1) && decide (d0 = 0)
  | _, _ => false

/-- A sampled pair that became disconnected: original path, no new path. -/
def pairLost (g gmod : WGraph) (o d : ℕ) : Bool :=
  (spOpt g o d).isSome && (spOpt gmod o d).isNone

/-- The unordered sample pairs: both endpoints drawn from `ns` with
`origem < destino`. -/
def samplePairs (ns : List ℕ) : List (ℕ × ℕ) :=
  ns.flatMap fun o => (ns.filter (fun d => o < d)).map (fun d => (o, d))

/-! ## Deleting one edge changes the component count by 0 or 1

The mathematical core behind claim C1: for graphs `G' ⊆ G` differing in
exactly one edge `s(u, v)` (on the same vertex set), the number of
connected components of `G'` is that of `G` when `u, v` stay connected,
and exactly one more when they do not. -/

section DeleteEdge

open SimpleGraph

variable {V : Type} {G G' : SimpleGraph V} {u v : V}

/-- Following any walk of `G` that ends at `u` or at `v`, the start can
still reach `u` or `v` after the edge `s(u, v)` is deleted. -/
theorem reach_end (hadj : ∀ x y, G'.Adj x y ↔ G.Adj x y ∧ s(x, y) ≠ s(u, v))
    {x z : V} (p : G.Walk x z) :
    z = u ∨ z = v → G'.Reachable x u ∨ G'.Reachable x v := by
  induction p with
  | nil =>
    rintro (rfl | rfl)
    · exact Or.inl (Reachable.refl _)
    · exact Or.inr (Reachable.refl _)
  | cons h q ih =>
    intro hz
    rename_i a b c
    by_cases hxy : s(a, b) = s(u, v)
    · rcases Sym2.eq_iff.mp hxy with ⟨rfl, rfl⟩ | ⟨rfl, rfl⟩
      · exact Or.inl (Reachable.refl _)
      · exact Or.inr (Reachable.refl _)
    · have hab : G'.Adj a b := (hadj a b).mpr ⟨h, hxy⟩
      rcases ih hz with h1 | h1
      · exact Or.inl (hab.reachable.trans h1)
      · exact Or.inr (hab.reachable.trans h1)

/-- A walk of `G` starting in a component that does not contain `u`
survives the deletion of the edge `s(u, v)`. -/
theorem reach_away (hadj : ∀ x y, G'.Adj x y ↔ G.Adj x y ∧ s(x, y) ≠ s(u, v))
    {x z : V} (p : G.Walk x z) :
    ¬ G.Reachable x u → G'.Reachable x z := by
  induction p with
  | nil => intro _; exact Reachable.refl _
  | cons h q ih =>
    intro hx
    rename_i a b c
    have hxy : s(a, b) ≠ s(u, v) := by
      intro heq
      rcases Sym2.eq_iff.mp heq with ⟨rfl, rfl⟩ | ⟨rfl, rfl⟩
      · exact hx (Reachable.refl _)
      · exact hx h.reachable
    have hb : ¬ G.Reachable b u := fun hr => hx (h.reachable.trans hr)
    exact ((hadj a b).mpr ⟨h, hxy⟩).reachable.trans (ih hb)

/-- Deleting the single edge `s(u, v)` keeps the component count when its
endpoints remain connected and raises it by exactly one otherwise. -/
theorem card_cc_deleteEdge [Fintype V] [DecidableEq V]
    [DecidableRel G.Adj] [DecidableRel G'.Adj] (huv : G.Adj u v)
    (hadj : ∀ x y, G'.Adj x y ↔ G.Adj x y ∧ s(x, y) ≠ s(u, v)) :
    Fintype.card G'.ConnectedComponent =
      if G'.Reachable u v then Fintype.card G.ConnectedComponent
      else Fintype.card G.ConnectedComponent + 1 := by
  classical
  have hle : G' ≤ G := fun x y h => ((hadj x y).mp h).1
  set φ : G'.ConnectedComponent → G.ConnectedComponent :=
    ConnectedComponent.map (Hom.mapSpanningSubgraphs hle) with hφ
  have hφmk : ∀ x : V, φ (G'.connectedComponentMk x) = G.connectedComponentMk x :=
    fun x => rfl
  set c₀ : G.ConnectedComponent := G.connectedComponentMk u with hc₀
  -- the fiber of φ over a component other than that of u is a singleton
  have fib1 : ∀ c : G.ConnectedComponent, c ≠ c₀ →
      (Finset.univ.filter fun x => φ x = c).card = 1 := by
    refine ConnectedComponent.ind fun w hw => ?_
    rw [Finset.card_eq_one]
    refine ⟨G'.connectedComponentMk w, ?_⟩
    ext x
    simp only [Finset.mem_filter, Finset.mem_univ, true_and, Finset.mem_singleton]
    constructor
    · refine ConnectedComponent.ind (fun y hy => ?_) x
      rw [hφmk] at hy
      have hyw : G.Reachable y w := ConnectedComponent.exact hy
      have hyu : ¬ G.Reachable y u := fun hr =>
        hw ((ConnectedComponent.eq.mpr hyw.symm).trans (ConnectedComponent.eq.mpr hr))
      obtain ⟨p⟩ := hyw
      exact ConnectedComponent.eq.mpr (reach_away hadj p hyu)
    · rintro rfl
      exact hφmk w
  -- the fiber over the component of u
  have fibsub : ∀ x : G'.ConnectedComponent, φ x = c₀ →
      x = G'.connectedComponentMk u ∨ x = G'.connectedComponentMk v := by
    refine ConnectedComponent.ind fun y hy => ?_
    rw [hφmk] at hy
    obtain ⟨p⟩ := ConnectedComponent.exact hy
    rcases reach_end hadj p (Or.inl rfl) with h1 | h1
    · exact Or.inl (ConnectedComponent.eq.mpr h1)
    · exact Or.inr (ConnectedComponent.eq.mpr h1)
  have hcard := Finset.card_eq_sum_card_fiberwise
    (f := φ) (s := Finset.univ) (t := Finset.univ) (fun x _ => Finset.mem_univ _)
  rw [Finset.card_univ] at hcard
  have hsplit :
      ∑ c ∈ Finset.univ, (Finset.univ.filter fun x => φ x = c).card =
        ∑ c ∈ Finset.univ \ {c₀}, (Finset.univ.filter fun x => φ x = c).card +
          (Finset.univ.filter fun x => φ x = c₀).card :=
    Finset.sum_eq_sum_diff_singleton_add (Finset.mem_univ c₀) _
  have hones :
      ∑ c ∈ Finset.univ \ {c₀}, (Finset.univ.filter fun x => φ x = c).card =
        Fintype.card G.ConnectedComponent - 1 := by
    rw [Finset.sum_congr rfl (fun c hc => fib1 c (by
      rcases Finset.mem_sdiff.mp hc with ⟨_, h⟩
      simpa using h))]
    rw [Finset.sum_const, smul_eq_mul, mul_one,
      Finset.card_sdiff (Finset.singleton_subset_iff.mpr (Finset.mem_univ _)),
      Finset.card_singleton, Finset.card_univ]
  have hpos : 1 ≤ Fintype.card G.ConnectedComponent :=
    Fintype.card_pos_iff.mpr ⟨c₀⟩
  by_cases hr : G'.Reachable u v
  · -- u and v still connected: the fiber over c₀ is a singleton as well
    have fib0 : (Finset.univ.filter fun x => φ x = c₀).card = 1 := by
      rw [Finset.card_eq_one]
      refine ⟨G'.connectedComponentMk u, ?_⟩
      ext x
      simp only [Finset.mem_filter, Finset.mem_univ, true_and, Finset.mem_singleton]
      constructor
      · intro hx
        rcases fibsub x hx with h | h
        · exact h
        · exact h.trans (ConnectedComponent.eq.mpr hr.symm)
      · rintro rfl
        exact hφmk u
    rw [if_pos hr, hcard, hsplit, hones, fib0]
    omega
  · -- u and v separated: the fiber over c₀ has exactly the two components
    have fib0 : (Finset.univ.filter fun x => φ x = c₀).card = 2 := by
      have hne : G'.connectedComponentMk u ≠ G'.connectedComponentMk v := by
        intro h
        exact hr (ConnectedComponent.exact h)
      have : (Finset.univ.filter fun x => φ x = c₀) =
          {G'.connectedComponentMk u, G'.connectedComponentMk v} := by
        ext x
        simp only [Finset.mem_filter, Finset.mem_univ, true_and,
          Finset.mem_insert, Finset.mem_singleton]
        constructor
        · exact fibsub x
        · rintro (rfl | rfl)
          · exact hφmk u
          · exact (hφmk v).trans (ConnectedComponent.eq.mpr huv.symm.reachable)
      rw [this, Finset.card_insert_of_not_mem (by simpa using hne),
        Finset.card_singleton]
    rw [if_neg hr, hcard, hsplit, hones, fib0]
    omega

end DeleteEdge

/-! ## Simple-path sets: membership, reversal, symmetry -/

theorem mem_candidates {g : WGraph} {p : List ℕ} :
    p ∈ candidates g ↔ p.Nodup ∧ ∀ x ∈ p, x ∈ g.nodes := by
  unfold candidates
  rw [List.mem_toFinset, List.mem_flatMap]
  constructor
  · rintro ⟨l, hl, hp⟩
    rw [List.mem_sublists] at hl
    have hperm := List.mem_permutations'.mp hp
    have hnd : l.Nodup := (nodup_listNodes g.nodes).sublist hl
    refine ⟨hperm.nodup_iff.mpr hnd, fun x hx => ?_⟩
    have : x ∈ l := hperm.mem_iff.mp hx
    exact mem_listNodes.mp (hl.subset this)
  · rintro ⟨hnd, hmem⟩
    refine ⟨(listNodes g.nodes).filter (· ∈ p), List.mem_sublists.mpr
      (List.filter_sublist _), List.mem_permutations'.mpr ?_⟩
    refine (List.perm_ext_iff_of_nodup hnd ((nodup_listNodes g.nodes).filter _)).mpr ?_
    intro a
    simp only [List.mem_filter, decide_eq_true_eq]
    exact ⟨fun h => ⟨mem_listNodes.mpr (hmem a h), h⟩, fun h => h.2⟩

theorem mem_pathFinset {g : WGraph} {a b : ℕ} {p : List ℕ} :
    p ∈ pathFinset g a b ↔ isPathList g a b p := by
  unfold pathFinset
  rw [Finset.mem_filter]
  exact ⟨fun h => h.2, fun h => ⟨mem_candidates.mpr ⟨h.1, h.2.1⟩, h⟩⟩

theorem edgesOf_concat (l : List ℕ) (x : ℕ) :
    edgesOf (l ++ [x]) = edgesOf l ++ (l.getLast?.elim [] fun z => [s(z, x)]) := by
  induction l with
  | nil => rfl
  | cons a t ih =>
    cases t with
    | nil => rfl
    | cons b t2 =>
      rw [show edgesOf (a :: b :: t2 ++ [x]) = s(a, b) :: edgesOf (b :: t2 ++ [x]) from rfl,
        ih, List.getLast?_cons_cons,
        show edgesOf (a :: b :: t2) = s(a, b) :: edgesOf (b :: t2) from rfl,
        List.cons_append]

theorem edgesOf_reverse (l : List ℕ) : edgesOf l.reverse = (edgesOf l).reverse := by
  induction l with
  | nil => rfl
  | cons x t ih =>
    rw [List.reverse_cons, edgesOf_concat, ih, List.getLast?_reverse]
    cases t with
    | nil => rfl
    | cons y t2 =>
      show (edgesOf (y :: t2)).reverse ++ [s(y, x)] =
        (s(x, y) :: edgesOf (y :: t2)).reverse
      rw [List.reverse_cons, Sym2.eq_swap]

theorem wlen_reverse (g : WGraph) (l : List ℕ) : wlen g l.reverse = wlen g l := by
  unfold wlen
  rw [edgesOf_reverse, List.map_reverse, List.sum_reverse]

theorem mem_edgesOf_reverse {l : List ℕ} {e : Sym2 ℕ} :
    e ∈ edgesOf l.reverse ↔ e ∈ edgesOf l := by
  rw [edgesOf_reverse, List.mem_reverse]

theorem isPathList_reverse {g : WGraph} {a b : ℕ} {p : List ℕ}
    (h : isPathList g a b p) : isPathList g b a p.reverse := by
  obtain ⟨hnd, hmem, hhd, hlast, hedges⟩ := h
  exact ⟨List.nodup_reverse.mpr hnd, fun x hx => hmem x (List.mem_reverse.mp hx),
    by rw [List.head?_reverse]; exact hlast,
    by rw [List.getLast?_reverse]; exact hhd,
    fun e he => hedges e (mem_edgesOf_reverse.mp he)⟩

theorem pathFinset_reverse (g : WGraph) (a b : ℕ) :
    pathFinset g b a = (pathFinset g a b).image List.reverse := by
  ext q
  rw [Finset.mem_image, mem_pathFinset]
  constructor
  · intro hq
    exact ⟨q.reverse, mem_pathFinset.mpr (isPathList_reverse hq), q.reverse_reverse⟩
  · rintro ⟨p, hp, rfl⟩
    exact isPathList_reverse (mem_pathFinset.mp hp)

theorem spOpt_symm (g : WGraph) (a b : ℕ) : spOpt g b a = spOpt g a b := by
  unfold spOpt
  rw [pathFinset_reverse g a b, Finset.image_image]
  congr 1
  exact Finset.image_congr (fun p _ => wlen_reverse g p)

theorem filter_reverse_card (g : WGraph) (a b : ℕ) (q : List ℕ → Prop)
    [DecidablePred q] (hq : ∀ p, q p.reverse ↔ q p) :
    ((pathFinset g b a).filter q).card = ((pathFinset g a b).filter q).card := by
  rw [pathFinset_reverse g a b, Finset.filter_image,
    Finset.card_image_of_injective _ List.reverse_injective]
  congr 1
  exact Finset.filter_congr (fun p _ => by rw [hq p])

theorem numSP_symm (g : WGraph) (a b : ℕ) : numSP g b a = numSP g a b := by
  unfold numSP
  rw [spOpt_symm g a b]
  cases h : spOpt g a b with
  | none => rfl
  | some d =>
    exact filter_reverse_card g a b _ (fun p => by rw [wlen_reverse])

theorem numSPedge_symm (g : WGraph) (a b : ℕ) (e : Sym2 ℕ) :
    numSPedge g b a e = numSPedge g a b e := by
  unfold numSPedge
  rw [spOpt_symm g a b]
  cases h : spOpt g a b with
  | none => rfl
  | some d =>
    exact filter_reverse_card g a b _
      (fun p => by rw [wlen_reverse, mem_edgesOf_reverse])

/-! ## Ordered-pair accumulation doubles the unordered one -/

theorem sum_offDiag_eq_two_mul (s : Finset ℕ) (f : ℕ × ℕ → ℚ)
    (hf : ∀ x y, f (x, y) = f (y, x)) :
    ∑ p ∈ s.offDiag, f p =
      2 * ∑ p ∈ s.offDiag.filter (fun p => p.1 < p.2), f p := by
  rw [← Finset.sum_filter_add_sum_filter_not s.offDiag (fun p => p.1 < p.2) f]
  have hswap : s.offDiag.filter (fun p => ¬ p.1 < p.2) =
      (s.offDiag.filter (fun p => p.1 < p.2)).image Prod.swap := by
    ext ⟨x, y⟩
    simp only [Finset.mem_filter, Finset.mem_offDiag, Finset.mem_image, Prod.exists,
      Prod.swap_prod_mk, Prod.mk.injEq]
    constructor
    · rintro ⟨⟨hx, hy, hxy⟩, hlt⟩
      exact ⟨y, x, ⟨⟨hy, hx, fun h => hxy h.symm⟩, lt_of_le_of_ne (not_lt.mp hlt)
        (fun h => hxy h.symm)⟩, rfl, rfl⟩
    · rintro ⟨c, d, ⟨⟨hc, hd, hcd⟩, hlt⟩, rfl, rfl⟩
      exact ⟨⟨hd, hc, fun h => hcd h.symm⟩, not_lt.mpr (le_of_lt hlt)⟩
  rw [hswap, Finset.sum_image (fun x _ y _ h => Prod.swap_injective h)]
  have : ∑ p ∈ s.offDiag.filter (fun p => p.1 < p.2), f p.swap =
      ∑ p ∈ s.offDiag.filter (fun p => p.1 < p.2), f p :=
    Finset.sum_congr rfl (fun p _ => by
      obtain ⟨x, y⟩ := p
      exact hf y x)
  rw [this]
  ring

/-! ## Degree bound -/

/-- In a well-formed graph each node has at most `n - 1` incident edges:
every incident edge is determined by its other endpoint. -/
theorem degree_le_card_sub_one (g : WGraph) (hwf : WellFormed g)
    (u : ℕ) : degree g u ≤ g.nodes.card - 1 := by
  classical
  unfold degree
  by_cases hdeg : (g.edges.filter (fun e => u ∈ e)).card = 0
  · omega
  have hu : u ∈ g.nodes := by
    obtain ⟨e, he⟩ := Finset.card_pos.mp (Nat.pos_of_ne_zero hdeg)
    obtain ⟨he1, he2⟩ := Finset.mem_filter.mp he
    exact hwf.2 e he1 u he2
  have hle : (g.edges.filter (fun e => u ∈ e)).card ≤ (g.nodes.erase u).card := by
    apply Finset.card_le_card_of_injOn (fun e => if h : u ∈ e then Sym2.Mem.other' h else 0)
    · intro e he
      obtain ⟨he1, he2⟩ := Finset.mem_filter.mp he
      rw [dif_pos he2, Finset.mem_erase]
      refine ⟨fun h => ?_, hwf.2 e he1 _ (Sym2.other_mem' he2)⟩
      have := Sym2.other_spec' he2
      rw [h] at this
      exact hwf.1 e he1 (by rw [← this]; exact Sym2.mk_isDiag_iff.mpr rfl)
    · intro e1 h1 e2 h2 heq
      obtain ⟨h11, h12⟩ := Finset.mem_filter.mp h1
      obtain ⟨h21, h22⟩ := Finset.mem_filter.mp h2
      simp only [dif_pos h12, dif_pos h22] at heq
      rw [← Sym2.other_spec' h12, ← Sym2.other_spec' h22, heq]
  calc (g.edges.filter (fun e => u ∈ e)).card ≤ (g.nodes.erase u).card := hle
    _ = g.nodes.card - 1 := Finset.card_erase_of_mem hu

/-! ## What the sampling loop accumulates -/

theorem foldl_impactStep_none (g gmod : WGraph) (o : ℕ) (ds : List ℕ) :
    ds.foldl (impactStep g gmod o) none = none := by
  induction ds with
  | nil => rfl
  | cons d ds ih =>
    rw [List.foldl_cons]
    exact ih

theorem foldl_impactStep (g gmod : WGraph) (o : ℕ) (ds : List ℕ)
    (acc : List ℚ × ℕ) :
    ds.foldl (impactStep g gmod o) (some acc) =
      if ∃ x ∈ ds, o < x ∧ pairCrash g gmod o x = true then none
      else some
        (acc.1 ++ (ds.filter (fun d => o < d)).filterMap (pairVal g gmod o),
         acc.2 + (ds.filter (fun d => o < d)).countP (pairLost g gmod o)) := by
  induction ds generalizing acc with
  | nil => simp
  | cons d ds ih =>
    rw [List.foldl_cons]
    by_cases hlt : o < d
    · have hne : ¬ d ≤ o := by omega
      have hfil : (d :: ds).filter (fun x => o < x) =
          d :: ds.filter (fun x => o < x) := by
        rw [List.filter_cons_of_pos (by simpa using hlt)]
      cases h0 : spOpt g o d with
      | none =>
        have hstep : impactStep g gmod o (some acc) d = some acc := by
          simp [impactStep, hne, h0]
        have hcrash : pairCrash g gmod o d = false := by
          simp [pairCrash, h0]
        have hval : pairVal g gmod o d = none := by
          simp [pairVal, h0]
        have hlost : pairLost g gmod o d = false := by
          simp [pairLost, h0]
        have hcond : (∃ x ∈ d :: ds, o < x ∧ pairCrash g gmod o x = true) ↔
            ∃ x ∈ ds, o < x ∧ pairCrash g gmod o x = true := by
          constructor
          · rintro ⟨x, hx, hox, hcx⟩
            rcases List.mem_cons.mp hx with rfl | hx2
            · rw [hcrash] at hcx; cases hcx
            · exact ⟨x, hx2, hox, hcx⟩
          · rintro ⟨x, hx, hh⟩
            exact ⟨x, List.mem_cons_of_mem d hx, hh⟩
        rw [hstep, ih, hfil]
        by_cases hex : ∃ x ∈ ds, o < x ∧ pairCrash g gmod o x = true
        · rw [if_pos hex, if_pos (hcond.mpr hex)]
        · rw [if_neg hex, if_neg (fun h => hex (hcond.mp h)),
            List.filterMap_cons_none hval, List.countP_cons, hlost]
          simp
      | some d0 =>
        cases h1 : spOpt gmod o d with
        | none =>
          have hstep : impactStep g gmod o (some acc) d =
              some (acc.1, acc.2 + 1) := by
            simp [impactStep, hne, h0, h1]
          have hcrash : pairCrash g gmod o d = false := by
            simp [pairCrash, h0, h1]
          have hval : pairVal g gmod o d = none := by
            simp [pairVal, h0, h1]
          have hlost : pairLost g gmod o d = true := by
            simp [pairLost, h0, h1]
          have hcond : (∃ x ∈ d :: ds, o < x ∧ pairCrash g gmod o x = true) ↔
              ∃ x ∈ ds, o < x ∧ pairCrash g gmod o x = true := by
            constructor
            · rintro ⟨x, hx, hox, hcx⟩
              rcases List.mem_cons.mp hx with rfl | hx2
              · rw [hcrash] at hcx; cases hcx
              · exact ⟨x, hx2, hox, hcx⟩
            · rintro ⟨x, hx, hh⟩
              exact ⟨x, List.mem_cons_of_mem d hx, hh⟩
          rw [hstep, ih, hfil]
          by_cases hex : ∃ x ∈ ds, o < x ∧ pairCrash g gmod o x = true
          · rw [if_pos hex, if_pos (hcond.mpr hex)]
          · rw [if_neg hex, if_neg (fun h => hex (hcond.mp h)),
              List.filterMap_cons_none hval, List.countP_cons, hlost]
            simp only [Option.some_inj]
            refine Prod.ext rfl ?_
            show acc.2 + 1 + _ = acc.2 + _
            simp
            omega
        | some d1 =>
          by_cases hinc : d0 < d1
          · by_cases hz : d0 = 0
            · subst hz
              have hstep : impactStep g gmod o (some acc) d = none := by
                simp [impactStep, hne, h0, h1, hinc]
              have hcrash : pairCrash g gmod o d = true := by
                simp [pairCrash, h0, h1, hinc]
              rw [hstep, foldl_impactStep_none,
                if_pos ⟨d, List.mem_cons_self d ds, hlt, hcrash⟩]
            · have hstep : impactStep g gmod o (some acc) d =
                  some (acc.1 ++ [(d1 - d0) / d0 * 100], acc.2) := by
                simp [impactStep, hne, h0, h1, hinc, hz]
              have hcrash : pairCrash g gmod o d = false := by
                simp [pairCrash, h0, h1, hz]
              have hval : pairVal g gmod o d = some ((d1 - d0) / d0 * 100) := by
                simp [pairVal, h0, h1, hinc, hz]
              have hlost : pairLost g gmod o d = false := by
                simp [pairLost, h0, h1]
              have hcond : (∃ x ∈ d :: ds, o < x ∧ pairCrash g gmod o x = true) ↔
                  ∃ x ∈ ds, o < x ∧ pairCrash g gmod o x = true := by
                constructor
                · rintro ⟨x, hx, hox, hcx⟩
                  rcases List.mem_cons.mp hx with rfl | hx2
                  · rw [hcrash] at hcx; cases hcx
                  · exact ⟨x, hx2, hox, hcx⟩
                · rintro ⟨x, hx, hh⟩
                  exact ⟨x, List.mem_cons_of_mem d hx, hh⟩
              rw [hstep, ih, hfil]
              by_cases hex : ∃ x ∈ ds, o < x ∧ pairCrash g gmod o x = true
              · rw [if_pos hex, if_pos (hcond.mpr hex)]
              · rw [if_neg hex, if_neg (fun h => hex (hcond.mp h)),
                  List.filterMap_cons_some hval, List.countP_cons, hlost]
                simp [List.append_assoc]
          · have hstep : impactStep g gmod o (some acc) d = some acc := by
              simp [impactStep, hne, h0, h1, hinc]
            have hcrash : pairCrash g gmod o d = false := by
              simp [pairCrash, h0, h1, hinc]
            have hval : pairVal g gmod o d = none := by
              simp only [pairVal, h0, h1]
              rw [if_neg (fun h => hinc h.1)]
            have hlost : pairLost g gmod o d = false := by
              simp [pairLost, h0, h1]
            have hcond : (∃ x ∈ d :: ds, o < x ∧ pairCrash g gmod o x = true) ↔
                ∃ x ∈ ds, o < x ∧ pairCrash g gmod o x = true := by
              constructor
              · rintro ⟨x, hx, hox, hcx⟩
                rcases List.mem_cons.mp hx with rfl | hx2
                · rw [hcrash] at hcx; cases hcx
                · exact ⟨x, hx2, hox, hcx⟩
              · rintro ⟨x, hx, hh⟩
                exact ⟨x, List.mem_cons_of_mem d hx, hh⟩
            rw [hstep, ih, hfil]
            by_cases hex : ∃ x ∈ ds, o < x ∧ pairCrash g gmod o x = true
            · rw [if_pos hex, if_pos (hcond.mpr hex)]
            · rw [if_neg hex, if_neg (fun h => hex (hcond.mp h)),
                List.filterMap_cons_none hval, List.countP_cons, hlost]
              simp
    · have hstep : impactStep g gmod o (some acc) d = some acc := by
        have hle : d ≤ o := by omega
        simp [impactStep, hle]
      have hfil : (d :: ds).filter (fun x => o < x) = ds.filter (fun x => o < x) := by
        rw [List.filter_cons_of_neg (by simpa using hlt)]
      have hcond : (∃ x ∈ d :: ds, o < x ∧ pairCrash g gmod o x = true) ↔
          ∃ x ∈ ds, o < x ∧ pairCrash g gmod o x = true := by
        constructor
        · rintro ⟨x, hx, hox, hcx⟩
          rcases List.mem_cons.mp hx with rfl | hx2
          · exact absurd hox hlt
          · exact ⟨x, hx2, hox, hcx⟩
        · rintro ⟨x, hx, hh⟩
          exact ⟨x, List.mem_cons_of_mem d hx, hh⟩
      rw [hstep, ih, hfil]
      by_cases hex : ∃ x ∈ ds, o < x ∧ pairCrash g gmod o x = true
      · rw [if_pos hex, if_pos (hcond.mpr hex)]
      · rw [if_neg hex, if_neg (fun h => hex (hcond.mp h))]

theorem impactLoop_spec (g gmod : WGraph) (ns : List ℕ) :
    impactLoop g gmod ns =
      if ∃ p ∈ samplePairs ns, pairCrash g gmod p.1 p.2 = true then none
      else some
        ((samplePairs ns).filterMap (fun p => pairVal g gmod p.1 p.2),
         (samplePairs ns).countP (fun p => pairLost g gmod p.1 p.2)) := by
  have hnone : ∀ os : List ℕ,
      os.foldl (fun acc o => ns.foldl (impactStep g gmod o) acc) none = none := by
    intro os
    induction os with
    | nil => rfl
    | cons o os ih =>
      rw [List.foldl_cons, foldl_impactStep_none]
      exact ih
  have hiffo : ∀ o : ℕ,
      (∃ p ∈ (ns.filter (fun d => o < d)).map (fun d => (o, d)),
        pairCrash g gmod p.1 p.2 = true) ↔
      ∃ x ∈ ns, o < x ∧ pairCrash g gmod o x = true := by
    intro o
    constructor
    · rintro ⟨p, hp, hc⟩
      obtain ⟨x, hx, rfl⟩ := List.mem_map.mp hp
      obtain ⟨hxn, hox⟩ := List.mem_filter.mp hx
      exact ⟨x, hxn, by simpa using hox, hc⟩
    · rintro ⟨x, hx, hox, hc⟩
      exact ⟨(o, x), List.mem_map.mpr ⟨x, List.mem_filter.mpr
        ⟨hx, by simpa using hox⟩, rfl⟩, hc⟩
  have aux : ∀ (os : List ℕ) (acc : List ℚ × ℕ),
      os.foldl (fun acc o => ns.foldl (impactStep g gmod o) acc) (some acc) =
        if ∃ p ∈ (os.flatMap fun o =>
            (ns.filter (fun d => o < d)).map (fun d => (o, d))),
            pairCrash g gmod p.1 p.2 = true then none
        else some
          (acc.1 ++ (os.flatMap fun o =>
              (ns.filter (fun d => o < d)).map (fun d => (o, d))).filterMap
              (fun p => pairVal g gmod p.1 p.2),
           acc.2 + (os.flatMap fun o =>
              (ns.filter (fun d => o < d)).map (fun d => (o, d))).countP
              (fun p => pairLost g gmod p.1 p.2)) := by
    intro os
    induction os with
    | nil => intro acc; simp
    | cons o os ih =>
      intro acc
      rw [List.foldl_cons, foldl_impactStep]
      have hcond : (∃ p ∈ ((o :: os).flatMap fun o =>
          (ns.filter (fun d => o < d)).map (fun d => (o, d))),
          pairCrash g gmod p.1 p.2 = true) ↔
          ((∃ x ∈ ns, o < x ∧ pairCrash g gmod o x = true) ∨
            ∃ p ∈ (os.flatMap fun o =>
              (ns.filter (fun d => o < d)).map (fun d => (o, d))),
              pairCrash g gmod p.1 p.2 = true) := by
        rw [List.flatMap_cons]
        constructor
        · rintro ⟨p, hp, hc⟩
          rcases List.mem_append.mp hp with hp1 | hp2
          · exact Or.inl ((hiffo o).mp ⟨p, hp1, hc⟩)
          · exact Or.inr ⟨p, hp2, hc⟩
        · rintro (h | ⟨p, hp, hc⟩)
          · obtain ⟨p, hp, hc⟩ := (hiffo o).mpr h
            exact ⟨p, List.mem_append_left _ hp, hc⟩
          · exact ⟨p, List.mem_append_right _ hp, hc⟩
      by_cases hex1 : ∃ x ∈ ns, o < x ∧ pairCrash g gmod o x = true
      · rw [if_pos hex1, hnone, if_pos (hcond.mpr (Or.inl hex1))]
      · rw [if_neg hex1, ih]
        by_cases hex2 : ∃ p ∈ (os.flatMap fun o =>
            (ns.filter (fun d => o < d)).map (fun d => (o, d))),
            pairCrash g gmod p.1 p.2 = true
        · rw [if_pos hex2, if_pos (hcond.mpr (Or.inr hex2))]
        · rw [if_neg hex2, if_neg (fun h => (hcond.mp h).elim hex1 hex2),
            List.flatMap_cons, List.filterMap_append, List.countP_append,
            List.filterMap_map, List.countP_map]
          refine congrArg some (Prod.ext ?_ ?_)
          · show _ ++ _ ++ _ = _
            rw [List.append_assoc]
            rfl
          · show _ + _ + _ = _
            rw [Nat.add_assoc]
            rfl
  unfold impactLoop samplePairs
  rw [aux ns ([], 0)]
  by_cases hex : ∃ p ∈ (ns.flatMap fun o =>
      (ns.filter (fun d => o < d)).map (fun d => (o, d))),
      pairCrash g gmod p.1 p.2 = true
  · rw [if_pos hex, if_pos hex]
  · rw [if_neg hex, if_neg hex]
    simp

theorem mem_samplePairs {ns : List ℕ} {p : ℕ × ℕ} :
    p ∈ samplePairs ns ↔ p.1 ∈ ns ∧ p.2 ∈ ns ∧ p.1 < p.2 := by
  obtain ⟨o, d⟩ := p
  unfold samplePairs
  simp only [List.mem_flatMap, List.mem_map, List.mem_filter, decide_eq_true_eq,
    Prod.mk.injEq]
  constructor
  · rintro ⟨a, ha, d2, ⟨hd2, hlt⟩, rfl, rfl⟩
    exact ⟨ha, hd2, hlt⟩
  · rintro ⟨ho, hd, hlt⟩
    exact ⟨o, ho, d, ⟨hd, hlt⟩, rfl, rfl⟩

/-! ## The loader: default weight and edge insertion -/

theorem carregarFrom_weight (dist : Sym2 ℕ → Option ℚ) (records : List (ℕ × ℕ))
    (g : WGraph) (k : Sym2 ℕ) :
    (carregarFrom dist g records).weight k =
      if ∃ r ∈ records, s(r.1, r.2) = k then (dist k).getD 0 else g.weight k := by
  induction records generalizing g with
  | nil => simp [carregarFrom]
  | cons r rs ih =>
    show (carregarFrom dist (addEdge g r.1 r.2 ((dist s(r.1, r.2)).getD 0)) rs).weight k = _
    rw [ih]
    by_cases hk : s(r.1, r.2) = k
    · by_cases hex : ∃ q ∈ rs, s(q.1, q.2) = k
      · rw [if_pos hex, if_pos ⟨r, List.mem_cons_self r rs, hk⟩]
      · rw [if_neg hex, if_pos ⟨r, List.mem_cons_self r rs, hk⟩]
        show (if k = s(r.1, r.2) then (dist s(r.1, r.2)).getD 0 else g.weight k) = _
        rw [if_pos hk.symm, hk]
    · have hiff : (∃ q ∈ r :: rs, s(q.1, q.2) = k) ↔ ∃ q ∈ rs, s(q.1, q.2) = k := by
        constructor
        · rintro ⟨q, hq, hqs⟩
          rcases List.mem_cons.mp hq with rfl | hq2
          · exact absurd hqs hk
          · exact ⟨q, hq2, hqs⟩
        · rintro ⟨q, hq, hqs⟩
          exact ⟨q, List.mem_cons_of_mem r hq, hqs⟩
      by_cases hex : ∃ q ∈ rs, s(q.1, q.2) = k
      · rw [if_pos hex, if_pos (hiff.mpr hex)]
      · rw [if_neg hex, if_neg (fun h => hex (hiff.mp h))]
        show (if k = s(r.1, r.2) then (dist s(r.1, r.2)).getD 0 else g.weight k) = _
        rw [if_neg (fun h => hk h.symm)]

theorem mem_edges_carregarFrom (dist : Sym2 ℕ → Option ℚ)
    (records : List (ℕ × ℕ)) (g : WGraph) (e : Sym2 ℕ) (he : e ∈ g.edges) :
    e ∈ (carregarFrom dist g records).edges := by
  induction records generalizing g with
  | nil => exact he
  | cons r rs ih => exact ih _ (Finset.mem_insert_of_mem he)

theorem carregarFrom_adds (dist : Sym2 ℕ → Option ℚ) (records : List (ℕ × ℕ))
    (g : WGraph) (u v : ℕ) (h : (u, v) ∈ records) :
    s(u, v) ∈ (carregarFrom dist g records).edges := by
  induction records generalizing g with
  | nil => cases h
  | cons r rs ih =>
    rcases List.mem_cons.mp h with rfl | h2
    · exact mem_edges_carregarFrom dist rs _ _ (Finset.mem_insert_self _ _)
    · exact ih _ h2

/-! ## Paths from a node to itself -/

theorem pathFinset_self (g : WGraph) (u : ℕ) (hu : u ∈ g.nodes) :
    pathFinset g u u = {[u]} := by
  ext p
  rw [mem_pathFinset, Finset.mem_singleton]
  constructor
  · rintro ⟨hnd, hmem, hhd, hlast, hedges⟩
    cases p with
    | nil => cases hhd
    | cons x t =>
      have hx : x = u := by
        rw [List.head?_cons, Option.some_inj] at hhd
        exact hhd
      cases t with
      | nil => rw [hx]
      | cons y t2 =>
        exfalso
        have hlast2 : (y :: t2).getLast? = some u := by
          rwa [List.getLast?_cons_cons] at hlast
        have hmem2 : u ∈ y :: t2 := by
          have := List.getLast?_eq_getLast (y :: t2) (by simp)
          rw [this, Option.some_inj] at hlast2
          rw [← hlast2]
          exact List.getLast_mem _
        rw [List.nodup_cons] at hnd
        rw [hx] at hnd
        exact hnd.1 hmem2
  · rintro rfl
    exact ⟨List.nodup_singleton u, fun x hx => by
        rw [List.mem_singleton] at hx; rwa [hx], rfl, rfl,
      fun e he => absurd he (List.not_mem_nil e)⟩

theorem spOpt_self (g : WGraph) (u : ℕ) (hu : u ∈ g.nodes) :
    spOpt g u u = some 0 := by
  unfold spOpt
  rw [pathFinset_self g u hu, Finset.image_singleton]
  rfl

/-! ## Concrete instances used by witnesses and counterexamples -/

/-- Path graph `1 — 2 — 3` with unit weights. -/
def gPath3 : WGraph := ⟨{1, 2, 3}, {s(1, 2), s(2, 3)}, fun _ => 1⟩

/-- Two nodes joined by one unit-weight edge. -/
def gTwo : WGraph := ⟨{1, 2}, {s(1, 2)}, fun _ => 1⟩

/-- Disconnected graph: edge `1 — 2` of weight 1 plus the isolated node 3. -/
def gDisc : WGraph := ⟨{1, 2, 3}, {s(1, 2)}, fun k => if k = s(1, 2) then 1 else 0⟩

/-- Cycle `1 — 2 — 3 — 4 — 1` with unit weights. -/
def gCycle4 : WGraph :=
  ⟨{1, 2, 3, 4}, {s(1, 2), s(2, 3), s(3, 4), s(4, 1)}, fun _ => 1⟩

/-- A single node, no edges. -/
def gOne : WGraph := ⟨{7}, ∅, fun _ => 0⟩

/-- A distance table carrying a negative distance for the pair `(1, 2)`. -/
def distNeg : Sym2 ℕ → Option ℚ := fun k => if k = s(1, 2) then some (-5) else none

/-- A distance table with no entries at all. -/
def distEmpty : Sym2 ℕ → Option ℚ := fun _ => none

/-- Bridge criterion on the embedded graph: for a well-formed graph, the
component count after `remove_edge` on an edge `e` of the graph is exactly
one more than before precisely when `nx.bridges` reports `e`, and is
unchanged for a non-bridge edge. -/
theorem removal_dichotomy (g : WGraph) (e : Sym2 ℕ)
    (he : e ∈ g.edges) (hwf : WellFormed g) :
    (numComponents (removeEdge g e) = numComponents g + 1 ↔ isBridge g e) ∧
      (¬ isBridge g e → numComponents (removeEdge g e) = numComponents g) := by
  induction e using Sym2.ind with
  | _ a b =>
  have hab : a ≠ b := fun h => hwf.1 _ he (by rw [h]; exact Sym2.mk_isDiag_iff.mpr rfl)
  have ha : a ∈ g.nodes := hwf.2 _ he a (Sym2.mem_mk_left a b)
  have hb : b ∈ g.nodes := hwf.2 _ he b (Sym2.mem_mk_right a b)
  set u : {x // x ∈ g.nodes} := ⟨a, ha⟩ with hu
  set v : {x // x ∈ g.nodes} := ⟨b, hb⟩ with hv
  have huv : (toSG g).Adj u v := ⟨fun h => hab (congrArg Subtype.val h), he⟩
  have key : ∀ x y : {t // t ∈ g.nodes}, (s(x, y) = s(u, v)) ↔ s(x.val, y.val) = s(a, b) := by
    intro x y
    rw [Sym2.eq_iff, Sym2.eq_iff]
    constructor
    · rintro (⟨rfl, rfl⟩ | ⟨rfl, rfl⟩)
      · exact Or.inl ⟨rfl, rfl⟩
      · exact Or.inr ⟨rfl, rfl⟩
    · rintro (⟨h1, h2⟩ | ⟨h1, h2⟩)
      · exact Or.inl ⟨Subtype.ext h1, Subtype.ext h2⟩
      · exact Or.inr ⟨Subtype.ext h1, Subtype.ext h2⟩
  have hadj : ∀ x y : {t // t ∈ g.nodes},
      (toSG (removeEdge g s(a, b))).Adj x y ↔
        (toSG g).Adj x y ∧ s(x, y) ≠ s(u, v) := by
    intro x y
    show (x ≠ y ∧ s(x.val, y.val) ∈ g.edges.erase s(a, b)) ↔ _
    rw [Finset.mem_erase]
    constructor
    · rintro ⟨hxy, hne, hmem⟩
      exact ⟨⟨hxy, hmem⟩, fun h => hne ((key x y).mp h)⟩
    · rintro ⟨⟨hxy, hmem⟩, hne⟩
      exact ⟨hxy, fun h => hne ((key x y).mpr h), hmem⟩
  have hcard := card_cc_deleteEdge huv hadj
  have hbr : isBridge g s(a, b) ↔ ¬ (toSG (removeEdge g s(a, b))).Reachable u v := by
    unfold isBridge
    rw [Sym2.lift_mk]
    simp only [he, true_and]
    constructor
    · intro hn hr
      exact hn ⟨ha, hb, hr⟩
    · rintro hn ⟨ha2, hb2, hr⟩
      exact hn hr
  have hnum : numComponents (removeEdge g s(a, b)) =
      Fintype.card (toSG (removeEdge g s(a, b))).ConnectedComponent := rfl
  have hpos : 1 ≤ numComponents g := Fintype.card_pos_iff.mpr ⟨(toSG g).connectedComponentMk u⟩
  by_cases hr : (toSG (removeEdge g s(a, b))).Reachable u v
  · rw [if_pos hr] at hcard
    have hcc : numComponents (removeEdge g s(a, b)) = numComponents g := by
      rw [hnum, hcard]; rfl
    have hnb : ¬ isBridge g s(a, b) := fun h => (hbr.mp h) hr
    exact ⟨⟨fun h => absurd hcc (by omega), fun h => absurd h hnb⟩, fun _ => hcc⟩
  · rw [if_neg hr] at hcard
    have hcc : numComponents (removeEdge g s(a, b)) = numComponents g + 1 := by
      rw [hnum, hcard]; rfl
    have hbb : isBridge g s(a, b) := hbr.mpr hr
    exact ⟨⟨fun _ => hbb, fun _ => hcc⟩, fun h => absurd hbb h⟩

/-! ## The claims -/

/-- C1: for every well-formed graph and every edge `e` of it, removing `e`
on the simulation's graph copy increases the connected-component count by
exactly 1 iff `e` is reported as a bridge, and removing a non-bridge edge
leaves the component count unchanged. -/
theorem C1_bridge_component_dichotomy (g : WGraph) (e : Sym2 ℕ)
    (he : e ∈ g.edges) (hwf : WellFormed g) :
    (numComponents (removeEdge g e) = numComponents g + 1 ↔ isBridge g e) ∧
      (¬ isBridge g e → numComponents (removeEdge g e) = numComponents g) :=
  removal_dichotomy g e he hwf

theorem C1_bridge_component_dichotomy_witness :
    (s(1, 2) ∈ gPath3.edges ∧ WellFormed gPath3) ∧
      ((numComponents (removeEdge gPath3 s(1, 2)) = numComponents gPath3 + 1 ↔
          isBridge gPath3 s(1, 2)) ∧
        (¬ isBridge gPath3 s(1, 2) →
          numComponents (removeEdge gPath3 s(1, 2)) = numComponents gPath3)) :=
  ⟨⟨by decide, by decide⟩,
    C1_bridge_component_dichotomy gPath3 s(1, 2) (by decide) (by decide)⟩

/-- C2: in a well-formed graph with more than one node, the computed
degree centrality of a node `u` equals `degree(u) / (nodeCount - 1)` and
lies in `[0, 1]`. -/
theorem C2_degree_centrality (g : WGraph) (hwf : WellFormed g)
    (hn : 1 < g.nodes.card) (u : ℕ) (_hu : u ∈ g.nodes) :
    ∃ f, degreeCentrality g = some f ∧
      f u = (degree g u : ℚ) / ((g.nodes.card : ℚ) - 1) ∧ 0 ≤ f u ∧ f u ≤ 1 := by
  have hq : (1 : ℚ) < (g.nodes.card : ℚ) := by exact_mod_cast hn
  refine ⟨fun v => (degree g v : ℚ) / ((g.nodes.card : ℚ) - 1), ?_, rfl, ?_, ?_⟩
  · unfold degreeCentrality
    rw [if_neg (by omega)]
  · exact div_nonneg (Nat.cast_nonneg _) (by linarith)
  · rw [div_le_one (by linarith)]
    have hdeg := degree_le_card_sub_one g hwf u
    have : (degree g u : ℚ) ≤ ((g.nodes.card - 1 : ℕ) : ℚ) := Nat.cast_le.mpr hdeg
    rwa [Nat.cast_sub (by omega), Nat.cast_one] at this

theorem C2_degree_centrality_witness :
    (WellFormed gPath3 ∧ 1 < gPath3.nodes.card ∧ 2 ∈ gPath3.nodes) ∧
      ∃ f, degreeCentrality gPath3 = some f ∧
        f 2 = (degree gPath3 2 : ℚ) / ((gPath3.nodes.card : ℚ) - 1) ∧
          0 ≤ f 2 ∧ f 2 ≤ 1 :=
  ⟨⟨by decide, by decide, by decide⟩,
    C2_degree_centrality gPath3 (by decide) (by decide) 2 (by decide)⟩

/-- C3, counterexample: on the disconnected graph `{1 — 2, 3}` the
computed closeness of node 1 is `1/2` (Wasserman–Faust normalization of
`nx.closeness_centrality`), not the claimed
`(reachable − 1) / (sum of distances) = 1`. -/
theorem C3_closeness_counterexample :
    closeness gDisc 1 ≠ (((reachSet gDisc 1).card : ℚ) - 1) / totsp gDisc 1 := by
  with_unfolding_all decide

/-- C3, amended: the computed closeness is the reachable-subset ratio
`(r − 1) / totsp` multiplied by the Wasserman–Faust factor
`(r − 1) / (n − 1)`; it coincides with the claimed formula whenever `u`
reaches every node, and an isolated node gets closeness 0. -/
theorem C3_closeness_amended (g : WGraph) (u : ℕ) (hn : 1 < g.nodes.card) :
    (0 < totsp g u →
      closeness g u = (((reachSet g u).card : ℚ) - 1) / totsp g u *
        ((((reachSet g u).card : ℚ) - 1) / ((g.nodes.card : ℚ) - 1))) ∧
    (reachSet g u = g.nodes → 0 < totsp g u →
      closeness g u = ((g.nodes.card : ℚ) - 1) / totsp g u) ∧
    (reachSet g u = {u} → closeness g u = 0) := by
  refine ⟨fun ht => ?_, fun hr ht => ?_, fun hiso => ?_⟩
  · unfold closeness
    rw [if_pos ⟨ht, hn⟩]
  · unfold closeness
    rw [if_pos ⟨ht, hn⟩, hr]
    have hq : (1 : ℚ) < (g.nodes.card : ℚ) := by exact_mod_cast hn
    rw [div_self (sub_ne_zero.mpr (ne_of_gt hq)), mul_one]
  · have hu : u ∈ g.nodes := by
      have : u ∈ reachSet g u := by
        rw [hiso]; exact Finset.mem_singleton_self u
      exact (Finset.mem_filter.mp this).1
    have ht : totsp g u = 0 := by
      unfold totsp
      rw [hiso, Finset.sum_singleton, spOpt_self g u hu]
      rfl
    unfold closeness
    rw [if_neg ?_]
    rw [ht]
    rintro ⟨h, _⟩
    exact lt_irrefl 0 h

theorem C3_closeness_amended_witness :
    1 < gTwo.nodes.card ∧
      ((0 < totsp gTwo 1 →
        closeness gTwo 1 = (((reachSet gTwo 1).card : ℚ) - 1) / totsp gTwo 1 *
          ((((reachSet gTwo 1).card : ℚ) - 1) / ((gTwo.nodes.card : ℚ) - 1))) ∧
      (reachSet gTwo 1 = gTwo.nodes → 0 < totsp gTwo 1 →
        closeness gTwo 1 = ((gTwo.nodes.card : ℚ) - 1) / totsp gTwo 1) ∧
      (reachSet gTwo 1 = {1} → closeness gTwo 1 = 0)) :=
  ⟨by decide, C3_closeness_amended gTwo 1 (by decide)⟩

/-- C4: for more than two nodes, the normalized edge betweenness equals
the per-unordered-pair Brandes accumulation divided by
`n (n − 1) / 2`, the number of unordered node pairs. -/
theorem C4_edge_betweenness_normalization (g : WGraph) (e : Sym2 ℕ)
    (hn : 2 < g.nodes.card) :
    edgeBetweenness g e = rawEdgeBetweennessUnordered g e /
      ((g.nodes.card : ℚ) * ((g.nodes.card : ℚ) - 1) / 2) := by
  have hq : (2 : ℚ) < (g.nodes.card : ℚ) := by exact_mod_cast hn
  unfold edgeBetweenness
  rw [if_pos (by omega)]
  unfold rawEdgeBetweenness rawEdgeBetweennessUnordered
  rw [sum_offDiag_eq_two_mul g.nodes _ (fun x y => by
    show (numSPedge g x y e : ℚ) / (numSP g x y : ℚ) =
      (numSPedge g y x e : ℚ) / (numSP g y x : ℚ)
    rw [numSP_symm g x y, numSPedge_symm g x y])]
  have h0 : (g.nodes.card : ℚ) ≠ 0 := by linarith
  have h1 : (g.nodes.card : ℚ) - 1 ≠ 0 := by
    intro h
    have : (g.nodes.card : ℚ) = 1 := by linarith
    linarith
  field_simp
  ring

theorem C4_edge_betweenness_normalization_witness :
    2 < gPath3.nodes.card ∧
      edgeBetweenness gPath3 s(1, 2) = rawEdgeBetweennessUnordered gPath3 s(1, 2) /
        ((gPath3.nodes.card : ℚ) * ((gPath3.nodes.card : ℚ) - 1) / 2) :=
  ⟨by decide, C4_edge_betweenness_normalization gPath3 s(1, 2) (by decide)⟩

/-- C5, counterexample: on a graph with a single node the degree
centrality computation does not return an all-zero map — the division
`0 / 0` raises `ZeroDivisionError` (modelled by `none`). -/
theorem C5_degenerate_counterexample :
    degreeCentrality gOne = none ∧ ¬ ∃ f, degreeCentrality gOne = some f := by
  have h : degreeCentrality gOne = none := by
    unfold degreeCentrality
    rw [if_pos (by decide)]
  exact ⟨h, by rintro ⟨f, hf⟩; rw [h] at hf; cases hf⟩

/-- C5, amended: on a single-node graph the degree-centrality computation
fails with a division by zero, while the networkx-computed centralities
(closeness, betweenness, edge betweenness) are all zero. -/
theorem C5_degenerate_amended (g : WGraph) (v : ℕ) (hv : g.nodes = {v}) :
    degreeCentrality g = none ∧ closeness g v = 0 ∧
      (∀ e, edgeBetweenness g e = 0) ∧ ∀ w, betweenness g w = 0 := by
  have hcard : g.nodes.card = 1 := by rw [hv]; exact Finset.card_singleton v
  have hoff : g.nodes.offDiag = ∅ := by
    apply Finset.eq_empty_of_forall_not_mem
    rintro ⟨x, y⟩ hm
    obtain ⟨hx, hy, hxy⟩ := Finset.mem_offDiag.mp hm
    rw [hv, Finset.mem_singleton] at hx hy
    exact hxy (hx.trans hy.symm)
  refine ⟨?_, ?_, fun e => ?_, fun w => ?_⟩
  · unfold degreeCentrality
    rw [if_pos hcard]
  · unfold closeness
    rw [if_neg (by rw [hcard]; rintro ⟨_, h⟩; omega)]
  · unfold edgeBetweenness
    rw [if_neg (by omega), rawEdgeBetweenness, hoff, Finset.sum_empty]
  · unfold betweenness
    rw [if_neg (by omega), rawBetweenness, hoff, Finset.sum_empty]

theorem C5_degenerate_amended_witness :
    gOne.nodes = {7} ∧
      (degreeCentrality gOne = none ∧ closeness gOne 7 = 0 ∧
        (∀ e, edgeBetweenness gOne e = 0) ∧ ∀ w, betweenness gOne w = 0) :=
  ⟨rfl, C5_degenerate_amended gOne 7 rfl⟩

/-- C6, counterexample: loading an edge record whose distance-table entry
is negative inserts the edge, with its negative weight — nothing rejects
it. -/
theorem C6_negative_weight_counterexample :
    s(1, 2) ∈ (carregarArestas distNeg [(1, 2)]).edges ∧
      (carregarArestas distNeg [(1, 2)]).weight s(1, 2) < 0 := by
  with_unfolding_all decide

/-- C6, amended: `add_edge` never fails: it inserts both endpoints and the
edge and records the given weight, whatever its sign. -/
theorem C6_add_edge_amended (g : WGraph) (u v : ℕ) (w : ℚ) :
    s(u, v) ∈ (addEdge g u v w).edges ∧ (addEdge g u v w).weight s(u, v) = w ∧
      u ∈ (addEdge g u v w).nodes ∧ v ∈ (addEdge g u v w).nodes := by
  refine ⟨Finset.mem_insert_self _ _, ?_, Finset.mem_insert_self _ _,
    Finset.mem_insert_of_mem (Finset.mem_insert_self _ _)⟩
  show (if s(u, v) = s(u, v) then w else g.weight s(u, v)) = w
  rw [if_pos rfl]

/-- C7: the edge-removal simulation operates on a private copy; the
analyzer's graph after the call has the same node set, edge set and
weights as before — indeed it is the same value. -/
theorem C7_simulation_frame (g : WGraph) (e : Sym2 ℕ) (l : List ℕ) :
    (simularRemocaoPonte g e l).2.nodes = g.nodes ∧
      (simularRemocaoPonte g e l).2.edges = g.edges ∧
      (∀ k, (simularRemocaoPonte g e l).2.weight k = g.weight k) ∧
      (simularRemocaoPonte g e l).2 = g :=
  ⟨rfl, rfl, fun _ => rfl, rfl⟩

/-- C8, counterexample: removing the edge `s(1, 2)` from the unit-weight
4-cycle leaves all six sampled pairs connected in both graphs, yet only
one percentage increase is reported (the pair `(1, 2)` itself); pairs
whose distance is unchanged get no entry. -/
theorem C8_impact_sampling_counterexample :
    ((simularRemocaoPonte gCycle4 s(1, 2) [1, 2, 3, 4]).1.map
        (fun r => r.aumentosDistancia.length)) = some 1 ∧
    ((samplePairs ([1, 2, 3, 4].take 20)).filter (fun p =>
      (spOpt gCycle4 p.1 p.2).isSome &&
        (spOpt (removeEdge gCycle4 s(1, 2)) p.1 p.2).isSome)).length = 6 := by
  with_unfolding_all decide

/-- C8, amended: the simulation samples the unordered pairs (`origem <
destino`) drawn from the first-20 prefix of the node list.  It raises an
unhandled `ZeroDivisionError` — producing no result at all — exactly when
some sampled pair's distance strictly increased from an original distance
of zero; otherwise it reports one percentage increase per sampled pair
whose shortest-path length strictly increased (pairs whose length is
unchanged are omitted) and separately counts the sampled pairs that
became disconnected. -/
theorem C8_impact_sampling_amended (g : WGraph) (e : Sym2 ℕ) (l : List ℕ) :
    ((simularRemocaoPonte g e l).1 = none ↔
      ∃ p ∈ samplePairs (l.take 20),
        pairCrash g (removeEdge g e) p.1 p.2 = true) ∧
    ((∀ p ∈ samplePairs (l.take 20),
        pairCrash g (removeEdge g e) p.1 p.2 = false) →
      (simularRemocaoPonte g e l).1 = some
        ⟨numComponents g, numComponents (removeEdge g e),
         (samplePairs (l.take 20)).filterMap
           (fun p => pairVal g (removeEdge g e) p.1 p.2),
         (samplePairs (l.take 20)).countP
           (fun p => pairLost g (removeEdge g e) p.1 p.2)⟩) ∧
    (∀ p : ℕ × ℕ, p ∈ samplePairs (l.take 20) ↔
      p.1 ∈ l.take 20 ∧ p.2 ∈ l.take 20 ∧ p.1 < p.2) ∧
    (∀ o d v, pairVal g (removeEdge g e) o d = some v ↔
      ∃ d0 d1, spOpt g o d = some d0 ∧ spOpt (removeEdge g e) o d = some d1 ∧
        d0 < d1 ∧ d0 ≠ 0 ∧ v = (d1 - d0) / d0 * 100) ∧
    (∀ o d, pairCrash g (removeEdge g e) o d = true ↔
      ∃ d1, spOpt g o d = some 0 ∧ spOpt (removeEdge g e) o d = some d1 ∧
        0 < d1) ∧
    (∀ o d, pairLost g (removeEdge g e) o d = true ↔
      (spOpt g o d).isSome = true ∧ spOpt (removeEdge g e) o d = none) := by
  have hloop := impactLoop_spec g (removeEdge g e) (l.take 20)
  refine ⟨?_, ?_, fun p => mem_samplePairs, fun o d v => ?_, fun o d => ?_,
    fun o d => ?_⟩
  · show ((impactLoop g (removeEdge g e) (l.take 20)).map _) = none ↔ _
    rw [Option.map_eq_none', hloop]
    by_cases hex : ∃ p ∈ samplePairs (l.take 20),
        pairCrash g (removeEdge g e) p.1 p.2 = true
    · rw [if_pos hex]
      exact iff_of_true rfl hex
    · rw [if_neg hex]
      exact iff_of_false (by simp) hex
  · intro hall
    have hex : ¬ ∃ p ∈ samplePairs (l.take 20),
        pairCrash g (removeEdge g e) p.1 p.2 = true := by
      rintro ⟨p, hp, hc⟩
      rw [hall p hp] at hc
      cases hc
    show ((impactLoop g (removeEdge g e) (l.take 20)).map _) = _
    rw [hloop, if_neg hex]
    rfl
  · unfold pairVal
    cases h0 : spOpt g o d with
    | none =>
      simp only [h0]
      constructor
      · rintro h; cases h
      · rintro ⟨d0, d1, hd0, _⟩; cases hd0
    | some d0 =>
      cases h1 : spOpt (removeEdge g e) o d with
      | none =>
        simp only [h1]
        constructor
        · rintro h; cases h
        · rintro ⟨e0, e1, _, he1, _⟩; cases he1
      | some d1 =>
        simp only [h1]
        by_cases hc : d0 < d1 ∧ d0 ≠ 0
        · rw [if_pos hc]
          constructor
          · rintro h
            rw [Option.some_inj] at h
            exact ⟨d0, d1, rfl, rfl, hc.1, hc.2, h.symm⟩
          · rintro ⟨e0, e1, he0, he1, hlt2, hz2, hv⟩
            rw [Option.some_inj] at he0 he1
            subst he0; subst he1; subst hv; rfl
        · rw [if_neg hc]
          constructor
          · rintro h; cases h
          · rintro ⟨e0, e1, he0, he1, hlt2, hz2, _⟩
            rw [Option.some_inj] at he0 he1
            subst he0; subst he1
            exact absurd ⟨hlt2, hz2⟩ hc
  · unfold pairCrash
    cases h0 : spOpt g o d with
    | none =>
      simp only [h0]
      constructor
      · rintro h; cases h
      · rintro ⟨d1, hd0, _⟩; cases hd0
    | some d0 =>
      cases h1 : spOpt (removeEdge g e) o d with
      | none =>
        simp only [h1]
        constructor
        · rintro h; cases h
        · rintro ⟨d1, _, hd1, _⟩; cases hd1
      | some d1 =>
        simp only [h1, Bool.and_eq_true, decide_eq_true_eq]
        constructor
        · rintro ⟨hlt2, hz2⟩
          subst hz2
          exact ⟨d1, rfl, rfl, hlt2⟩
        · rintro ⟨e1, he0, he1, hpos⟩
          rw [Option.some_inj] at he0 he1
          subst he0; subst he1
          exact ⟨hpos, rfl⟩
  · unfold pairLost
    rw [Bool.and_eq_true, Option.isNone_iff_eq_none]

/-- C9: recomputing all four centrality measures twice on the same,
unmodified graph produces identical results. -/
theorem C9_determinism (g : WGraph) :
    (calcularDuasVezes g).1 = (calcularDuasVezes g).2 := rfl

/-- C10: an edge record whose node pair is absent from the distance table
does not make loading fail: the edge is added with default weight 0. -/
theorem C10_missing_distance_default (dist : Sym2 ℕ → Option ℚ)
    (records : List (ℕ × ℕ)) (u v : ℕ)
    (h1 : (u, v) ∈ records) (h2 : dist s(u, v) = none) :
    s(u, v) ∈ (carregarArestas dist records).edges ∧
      (carregarArestas dist records).weight s(u, v) = 0 := by
  constructor
  · exact carregarFrom_adds dist records emptyGraph u v h1
  · unfold carregarArestas
    rw [carregarFrom_weight, if_pos ⟨(u, v), h1, rfl⟩, h2]
    rfl

theorem C10_missing_distance_default_witness :
    ((1, 2) ∈ [(1, 2)] ∧ distEmpty s(1, 2) = none) ∧
      (s(1, 2) ∈ (carregarArestas distEmpty [(1, 2)]).edges ∧
        (carregarArestas distEmpty [(1, 2)]).weight s(1, 2) = 0) :=
  ⟨⟨by decide, rfl⟩, C10_missing_distance_default distEmpty [(1, 2)] 1 2
    (by decide) rfl⟩

end BsbRede
